import Mathlib

/-!
A shallow embedding of the streaming AES-256-CBC codec implemented in
`crypto/block_cipher/basic_block_cipher.go`, together with proofs of the
specified properties.

Modelling conventions:
* Bytes are modelled as natural numbers; all byte values produced by the code
  itself (padding values, ASCII constants) are below 256 by construction.
* The external cryptographic primitives (Go's `crypto/aes` block cipher and
  `golang.org/x/crypto/pbkdf2` with `sha256.New`) are not part of this
  repository; they are abstracted as a `Primitives` bundle consisting of an
  arbitrary PBKDF2-style derivation function and an arbitrary keyed block
  permutation on 16-byte blocks, carrying exactly the contracts those
  libraries document (fixed output length, block-length preservation, and
  decryption inverting encryption).
* An `io.Reader` is modelled by the byte sequence it delivers plus a flag
  saying whether, after that sequence, reading fails with a non-EOF error
  (`fail = true`) or reports end of input (`fail = false`).  `readFull`
  models `io.ReadFull`, whose contract guarantees the error is `nil`
  exactly when the buffer was filled completely.
* An `io.Writer` is modelled by accumulating the written bytes in the
  result; writes themselves cannot fail in this model.
* `cipher.BlockMode.CryptBlocks` panics when the input length is not a
  multiple of the block size; a panic is a distinct outcome (`DResult.panic`)
  from an error return.
* The `for` loops of `EncryptStream`/`DecryptStream` are written with an
  explicit fuel argument; the wrappers supply fuel that is proved sufficient
  (each iteration that continues consumes a full 1 MiB buffer).
* The random salt of `writeEncryptedHeader` is an injected parameter, as
  suggested by the design notes (test-controlled randomness).
-/

/-- The 1 MiB chunk buffer, `bufferSize` in the source. -/
def bufferSize : Nat := 1024 * 1024

def headerSize : Nat := 16

def saltSize : Nat := 8

def aesBlockSize : Nat := 16

def pbkdf2Iterations : Nat := 10000

def aes256KeySize : Nat := 32

def ivOffset : Nat := 32

/-- The ASCII bytes of the magic tag constant `"Salted__"`. -/
def magicHeader : List Nat := [0x53, 0x61, 0x6C, 0x74, 0x65, 0x64, 0x5F, 0x5F]

/-- Abstraction of the external cryptographic primitives used by the codec:
`pbkdf2Key pw salt iters klen` models `pbkdf2.Key(pw, salt, iters, klen, sha256.New)`
and `aesEnc key` / `aesDec key` model the block encryption/decryption of the
AES cipher returned by `aes.NewCipher(key)`.  The proof fields are the
documented contracts of those libraries. -/
structure Primitives where
  pbkdf2Key : List Nat → List Nat → Nat → Nat → List Nat
  aesEnc : List Nat → List Nat → List Nat
  aesDec : List Nat → List Nat → List Nat
  pbkdf2Key_length : ∀ pw salt iters klen, (pbkdf2Key pw salt iters klen).length = klen
  aesEnc_length : ∀ key b, b.length = aesBlockSize → (aesEnc key b).length = aesBlockSize
  aesDec_length : ∀ key b, b.length = aesBlockSize → (aesDec key b).length = aesBlockSize
  aesDec_aesEnc : ∀ key b, b.length = aesBlockSize → aesDec key (aesEnc key b) = b

/-- Error kinds returned by the codec, following the spec's taxonomy:
`headerReadFailed` is the wrapped "failed to read header" error,
`invalidFormat` the "invalid file format" error (both are FormatError in the
spec's taxonomy), `cipherSetup` the `aes.NewCipher` failure, and
`readFailed` the wrapped "failed to read ... data" error. -/
inductive ErrKind where
  | headerReadFailed
  | invalidFormat
  | cipherSetup
  | readFailed
deriving DecidableEq

/-- The three error shapes `io.ReadFull` can report. -/
inductive ReadErr where
  | eof
  | unexpectedEOF
  | other
deriving DecidableEq

/-- A byte source: the bytes it will deliver, and whether reading past them
yields a non-EOF error (`fail = true`) or end of input (`fail = false`). -/
structure Reader where
  data : List Nat
  fail : Bool
deriving DecidableEq

/-- Model of `io.ReadFull r buf` with `n = len(buf)`: returns the bytes read,
the reported error, and the advanced reader.  Per the documented contract,
the error is `none` if and only if exactly `n` bytes were delivered. -/
def readFull (r : Reader) (n : Nat) : List Nat × Option ReadErr × Reader :=
  if n ≤ r.data.length then
    (r.data.take n, none, ⟨r.data.drop n, r.fail⟩)
  else
    (r.data,
     some (if r.fail then ReadErr.other
           else if r.data = [] then ReadErr.eof else ReadErr.unexpectedEOF),
     ⟨[], r.fail⟩)

/-- Outcome of a stream call: the bytes written to the output together with
normal return (`ok`), an error return (`err`), or a runtime panic (`panic`). -/
inductive DResult where
  | ok (out : List Nat)
  | err (out : List Nat) (e : ErrKind)
  | panic (out : List Nat)
deriving DecidableEq

/-- Prepending already-written output bytes to the outcome of the rest of a
stream call. -/
def DResult.prepend (pre : List Nat) : DResult → DResult
  | DResult.ok out => DResult.ok (pre ++ out)
  | DResult.err out e => DResult.err (pre ++ out) e
  | DResult.panic out => DResult.panic (pre ++ out)

/-- Bytewise XOR of two equal-length buffers (the CBC combining step). -/
def xorBytes (a b : List Nat) : List Nat :=
  List.zipWith (fun x y => x ^^^ y) a b

/-- CBC encryption of a block-aligned buffer, 16 bytes at a time, with fuel;
returns the ciphertext and the updated chaining value (the last ciphertext
block).  Models `cipher.NewCBCEncrypter(...).CryptBlocks`. -/
def cbcEncAux (enc : List Nat → List Nat) :
    Nat → List Nat → List Nat → List Nat × List Nat
  | 0, iv, _ => ([], iv)
  | fuel + 1, iv, src =>
    if src = [] then ([], iv)
    else
      let c := enc (xorBytes (src.take aesBlockSize) iv)
      let r := cbcEncAux enc fuel c (src.drop aesBlockSize)
      (c ++ r.1, r.2)

/-- CBC decryption of a block-aligned buffer, 16 bytes at a time, with fuel;
returns the plaintext and the updated chaining value (the last ciphertext
block).  Models `cipher.NewCBCDecrypter(...).CryptBlocks`. -/
def cbcDecAux (dec : List Nat → List Nat) :
    Nat → List Nat → List Nat → List Nat × List Nat
  | 0, iv, _ => ([], iv)
  | fuel + 1, iv, src =>
    if src = [] then ([], iv)
    else
      let c := src.take aesBlockSize
      let p := xorBytes (dec c) iv
      let r := cbcDecAux dec fuel c (src.drop aesBlockSize)
      (p ++ r.1, r.2)

/-- `readAndValidateHeader` from the source: read exactly 16 bytes, check the
magic tag, return the trailing 8 bytes as the salt together with the advanced
reader. -/
def readAndValidateHeader (r : Reader) : Except ErrKind (List Nat × Reader) :=
  let t := readFull r headerSize
  match t.2.1 with
  | some _ => Except.error ErrKind.headerReadFailed
  | none =>
    if t.1.take saltSize ≠ magicHeader then Except.error ErrKind.invalidFormat
    else Except.ok (t.1.drop saltSize, t.2.2)

/-- `deriveKeyAndIV` from the source: one PBKDF2 call for 32+16 bytes, key is
the first 32 bytes, IV is bytes 32..48. -/
def deriveKeyAndIV (P : Primitives) (password salt : List Nat) : List Nat × List Nat :=
  let keyIv := P.pbkdf2Key password salt pbkdf2Iterations (aes256KeySize + aesBlockSize)
  let key := keyIv.take aes256KeySize
  let iv := (keyIv.drop ivOffset).take aesBlockSize
  (key, iv)

/-- `removePKCS7Padding` from the source: on an empty read return the data
unchanged; otherwise read the last byte as the padding length and drop that
many bytes, unless it exceeds the data length or the block size. -/
def removePKCS7Padding (data : List Nat) (bytesRead : Nat) : List Nat :=
  if bytesRead = 0 then data
  else
    let paddingLength := data.getD (bytesRead - 1) 0
    if paddingLength > bytesRead ∨ paddingLength > aesBlockSize then data
    else data.take (bytesRead - paddingLength)

/-- `applyPKCS7Padding` from the source: append `16 - len % 16` bytes each
holding that value. -/
def applyPKCS7Padding (data : List Nat) : List Nat :=
  let padding := aesBlockSize - data.length % aesBlockSize
  data ++ List.replicate padding padding

/-- The key-length check performed by `aes.NewCipher`. -/
def aesNewCipherOk (key : List Nat) : Bool :=
  key.length = 16 || key.length = 24 || key.length = 32

/-- `writeEncryptedBlock` from the source: CBC-encrypt `data` under the
current chaining value and emit it.  `CryptBlocks` panics (modelled as `none`)
when the input is not block-aligned. -/
def writeEncryptedBlock (enc : List Nat → List Nat) (iv data : List Nat) :
    Option (List Nat × List Nat) :=
  if aesBlockSize ∣ data.length then some (cbcEncAux enc data.length iv data)
  else none

/-- `processFinalBlock` from the source, with `chunk = data[:bytesRead]`:
an empty final read emits one full block of padding (built by
`applyPKCS7Padding` on the empty slice when nothing was ever written, and by
`bytes.Repeat` otherwise); a non-empty final read is padded and emitted. -/
def processFinalBlock (enc : List Nat → List Nat) (iv chunk : List Nat)
    (hasWrittenData : Bool) : DResult :=
  if chunk.length = 0 then
    if !hasWrittenData then
      match writeEncryptedBlock enc iv (applyPKCS7Padding []) with
      | none => DResult.panic []
      | some res => DResult.ok res.1
    else
      match writeEncryptedBlock enc iv (List.replicate aesBlockSize aesBlockSize) with
      | none => DResult.panic []
      | some res => DResult.ok res.1
  else
    match writeEncryptedBlock enc iv (applyPKCS7Padding chunk) with
    | none => DResult.panic []
    | some res => DResult.ok res.1

/-- The `for` loop of `EncryptStream`, with explicit fuel (sufficient fuel is
supplied by the wrapper).  Mirrors the source: read up to one buffer, treat a
short read or EOF as the last block, otherwise encrypt and emit the full
buffer, note that data was written, check the (unreachable, per `io.ReadFull`'s
contract) non-EOF read-error branch, and continue. -/
def encryptLoopAux (enc : List Nat → List Nat) :
    Nat → List Nat → Reader → Bool → DResult
  | 0, _, _, _ => DResult.panic []
  | fuel + 1, iv, r, hasWrittenData =>
    let t := readFull r bufferSize
    let chunk := t.1
    let readErr := t.2.1
    let isEOF := readErr = some ReadErr.eof ∨ readErr = some ReadErr.unexpectedEOF
    let isLastBlock := chunk.length < bufferSize ∨ isEOF
    if isLastBlock then processFinalBlock enc iv chunk hasWrittenData
    else
      match writeEncryptedBlock enc iv chunk with
      | none => DResult.panic []
      | some res =>
        if readErr ≠ none ∧ ¬ isEOF then DResult.err res.1 ErrKind.readFailed
        else DResult.prepend res.1 (encryptLoopAux enc fuel res.2 t.2.2 true)

/-- `writeEncryptedHeader` from the source, with the random salt injected:
emit the magic tag then the salt. -/
def writeEncryptedHeader (salt : List Nat) : List Nat :=
  magicHeader ++ salt

/-- `EncryptStream` from the source: write the header, derive key and IV,
set up the cipher, and run the chunked encryption loop. -/
def EncryptStream (P : Primitives) (salt : List Nat) (r : Reader)
    (password : List Nat) : DResult :=
  let header := writeEncryptedHeader salt
  let kv := deriveKeyAndIV P password salt
  if aesNewCipherOk kv.1 then
    DResult.prepend header (encryptLoopAux (P.aesEnc kv.1) (r.data.length + 1) kv.2 r false)
  else DResult.err header ErrKind.cipherSetup

/-- `handleEndOfFile` from the source: if a decrypted chunk is pending, strip
padding from it and emit it; otherwise emit nothing. -/
def handleEndOfFile (prev : List Nat) : DResult :=
  if prev.length > 0 then DResult.ok (removePKCS7Padding prev prev.length)
  else DResult.ok []

/-- `processDecryptionBlock` from the source, with `chunk` the bytes actually
read: CBC-decrypt the chunk (panicking, modelled as `none`, when it is not
block-aligned), emit the pending chunk, and either strip padding from the
current chunk and finish (`none` as next pending) or hold the current chunk
back as the new pending data. -/
def processDecryptionBlock (dec : List Nat → List Nat) (iv chunk prev : List Nat)
    (isLastBlock : Bool) :
    Option (List Nat × Option (List Nat) × List Nat) :=
  if aesBlockSize ∣ chunk.length then
    let r := cbcDecAux dec chunk.length iv chunk
    if isLastBlock then
      some (prev ++ removePKCS7Padding r.1 chunk.length, none, r.2)
    else
      some (prev, some r.1, r.2)
  else none

/-- The `for` loop of `DecryptStream`, with explicit fuel (sufficient fuel is
supplied by the wrapper).  Mirrors the source: read up to one buffer, treat a
short read or EOF as the last block, on an empty read flush the pending chunk,
otherwise process the chunk, finish if it was the last one, check the
(unreachable) non-EOF read-error branch, and continue with the new pending
chunk. -/
def decryptLoopAux (dec : List Nat → List Nat) :
    Nat → List Nat → Reader → List Nat → DResult
  | 0, _, _, _ => DResult.panic []
  | fuel + 1, iv, r, prev =>
    let t := readFull r bufferSize
    let chunk := t.1
    let readErr := t.2.1
    let isEOF := readErr = some ReadErr.eof ∨ readErr = some ReadErr.unexpectedEOF
    let isLastBlock := chunk.length < bufferSize ∨ isEOF
    if chunk.length = 0 then handleEndOfFile prev
    else
      match processDecryptionBlock dec iv chunk prev (decide isLastBlock) with
      | none => DResult.panic []
      | some res =>
        match res.2.1 with
        | none => DResult.ok res.1
        | some next =>
          if readErr ≠ none ∧ ¬ isEOF then DResult.err res.1 ErrKind.readFailed
          else DResult.prepend res.1 (decryptLoopAux dec fuel res.2.2 t.2.2 next)

/-- `DecryptStream` from the source: read and validate the header, derive key
and IV from the password and the recovered salt, set up the cipher, and run
the chunked decryption loop with an initially empty pending buffer. -/
def DecryptStream (P : Primitives) (r : Reader) (password : List Nat) : DResult :=
  match readAndValidateHeader r with
  | Except.error e => DResult.err [] e
  | Except.ok s =>
    let kv := deriveKeyAndIV P password s.1
    if aesNewCipherOk kv.1 then
      decryptLoopAux (P.aesDec kv.1) (s.2.data.length + 1) kv.2 s.2 []
    else DResult.err [] ErrKind.cipherSetup

/-- Specification helper: the plaintext actually emitted by the decryption
loop on a block-aligned ciphertext - every chunk decrypted verbatim except
that the final (short or last) chunk has `removePKCS7Padding` applied. -/
def stripFinalAux (dec : List Nat → List Nat) :
    Nat → List Nat → List Nat → List Nat
  | 0, _, _ => []
  | fuel + 1, iv, data =>
    if data.length ≤ bufferSize then
      removePKCS7Padding (cbcDecAux dec data.length iv data).1 data.length
    else
      let r := cbcDecAux dec bufferSize iv (data.take bufferSize)
      r.1 ++ stripFinalAux dec fuel r.2 (data.drop bufferSize)

/-- Trivial instantiation of the external primitives (identity block cipher,
all-zero derived key material), used to evaluate the codec on concrete
inputs. -/
def idPrims : Primitives where
  pbkdf2Key := fun _ _ _ klen => List.replicate klen 0
  aesEnc := fun _ b => b
  aesDec := fun _ b => b
  pbkdf2Key_length := fun _ _ _ _ => List.length_replicate _ _
  aesEnc_length := fun _ _ h => h
  aesDec_length := fun _ _ h => h
  aesDec_aesEnc := fun _ _ _ => rfl

/-! ### Basic lemmas about the CBC building blocks -/

theorem length_xorBytes (a b : List Nat) :
    (xorBytes a b).length = min a.length b.length :=
  List.length_zipWith _ a b

theorem xorBytes_cancel (a : List Nat) : ∀ b : List Nat, a.length = b.length →
    xorBytes (xorBytes a b) b = a := by
  induction a with
  | nil => intro b _; cases b <;> rfl
  | cons x xs ih =>
    intro b h
    cases b with
    | nil => simp at h
    | cons y ys =>
      have h' : xs.length = ys.length := by simpa using h
      simp only [xorBytes, List.zipWith_cons_cons] at *
      rw [Nat.xor_cancel_right, ih ys h']

theorem cbcEncAux_nil (enc : List Nat → List Nat) (f : Nat) (iv : List Nat) :
    cbcEncAux enc f iv [] = ([], iv) := by
  cases f <;> rfl

theorem cbcDecAux_nil (dec : List Nat → List Nat) (f : Nat) (iv : List Nat) :
    cbcDecAux dec f iv [] = ([], iv) := by
  cases f <;> rfl

theorem cbcEncAux_fuel (enc : List Nat → List Nat) :
    ∀ f g (iv src : List Nat), src.length ≤ f → src.length ≤ g →
    cbcEncAux enc f iv src = cbcEncAux enc g iv src := by
  intro f
  induction f with
  | zero =>
    intro g iv src h _
    rw [List.eq_nil_of_length_eq_zero (Nat.le_zero.mp h), cbcEncAux_nil, cbcEncAux_nil]
  | succ f ih =>
    intro g iv src h1 h2
    by_cases hs : src = []
    · rw [hs, cbcEncAux_nil, cbcEncAux_nil]
    · have hpos : 0 < src.length := List.length_pos.mpr hs
      cases g with
      | zero => omega
      | succ g' =>
        have hd : (src.drop aesBlockSize).length ≤ f := by
          simp only [List.length_drop, aesBlockSize]; omega
        have hd' : (src.drop aesBlockSize).length ≤ g' := by
          simp only [List.length_drop, aesBlockSize]; omega
        simp only [cbcEncAux, if_neg hs]
        rw [ih g' _ _ hd hd']

theorem cbcDecAux_fuel (dec : List Nat → List Nat) :
    ∀ f g (iv src : List Nat), src.length ≤ f → src.length ≤ g →
    cbcDecAux dec f iv src = cbcDecAux dec g iv src := by
  intro f
  induction f with
  | zero =>
    intro g iv src h _
    rw [List.eq_nil_of_length_eq_zero (Nat.le_zero.mp h), cbcDecAux_nil, cbcDecAux_nil]
  | succ f ih =>
    intro g iv src h1 h2
    by_cases hs : src = []
    · rw [hs, cbcDecAux_nil, cbcDecAux_nil]
    · have hpos : 0 < src.length := List.length_pos.mpr hs
      cases g with
      | zero => omega
      | succ g' =>
        have hd : (src.drop aesBlockSize).length ≤ f := by
          simp only [List.length_drop, aesBlockSize]; omega
        have hd' : (src.drop aesBlockSize).length ≤ g' := by
          simp only [List.length_drop, aesBlockSize]; omega
        simp only [cbcDecAux, if_neg hs]
        rw [ih g' _ _ hd hd']

theorem cbcEncAux_step (enc : List Nat → List Nat) (f : Nat) (iv src : List Nat)
    (hs : src ≠ []) (hf : src.length ≤ f) :
    cbcEncAux enc f iv src =
      (enc (xorBytes (src.take aesBlockSize) iv) ++
        (cbcEncAux enc (src.drop aesBlockSize).length
          (enc (xorBytes (src.take aesBlockSize) iv)) (src.drop aesBlockSize)).1,
       (cbcEncAux enc (src.drop aesBlockSize).length
          (enc (xorBytes (src.take aesBlockSize) iv)) (src.drop aesBlockSize)).2) := by
  have hpos : 0 < src.length := List.length_pos.mpr hs
  cases f with
  | zero => omega
  | succ f =>
    simp only [cbcEncAux, if_neg hs]
    rw [cbcEncAux_fuel enc f (src.drop aesBlockSize).length _ _
      (by simp only [List.length_drop, aesBlockSize]; omega) le_rfl]

theorem cbcDecAux_step (dec : List Nat → List Nat) (f : Nat) (iv src : List Nat)
    (hs : src ≠ []) (hf : src.length ≤ f) :
    cbcDecAux dec f iv src =
      (xorBytes (dec (src.take aesBlockSize)) iv ++
        (cbcDecAux dec (src.drop aesBlockSize).length
          (src.take aesBlockSize) (src.drop aesBlockSize)).1,
       (cbcDecAux dec (src.drop aesBlockSize).length
          (src.take aesBlockSize) (src.drop aesBlockSize)).2) := by
  have hpos : 0 < src.length := List.length_pos.mpr hs
  cases f with
  | zero => omega
  | succ f =>
    simp only [cbcDecAux, if_neg hs]
    rw [cbcDecAux_fuel dec f (src.drop aesBlockSize).length _ _
      (by simp only [List.length_drop, aesBlockSize]; omega) le_rfl]

theorem cbcEncAux_length (enc : List Nat → List Nat)
    (henc : ∀ b : List Nat, b.length = aesBlockSize → (enc b).length = aesBlockSize) :
    ∀ f (iv src : List Nat), src.length ≤ f → aesBlockSize ∣ src.length →
    iv.length = aesBlockSize →
    (cbcEncAux enc f iv src).1.length = src.length ∧
    (cbcEncAux enc f iv src).2.length = aesBlockSize := by
  intro f
  induction f with
  | zero =>
    intro iv src h _ hiv
    rw [List.eq_nil_of_length_eq_zero (Nat.le_zero.mp h), cbcEncAux_nil]
    exact ⟨rfl, hiv⟩
  | succ f ih =>
    intro iv src h hdvd hiv
    have hb16 : aesBlockSize = 16 := rfl
    by_cases hs : src = []
    · rw [hs, cbcEncAux_nil]; exact ⟨rfl, hiv⟩
    · have hpos : 0 < src.length := List.length_pos.mpr hs
      have h16 : aesBlockSize ≤ src.length := Nat.le_of_dvd hpos hdvd
      have htake : (src.take aesBlockSize).length = aesBlockSize := by
        simp only [List.length_take]; omega
      have hc : (enc (xorBytes (src.take aesBlockSize) iv)).length = aesBlockSize := by
        apply henc
        rw [length_xorBytes, htake, hiv, Nat.min_self]
      have hdl : (src.drop aesBlockSize).length ≤ f := by
        simp only [List.length_drop]; omega
      have hddvd : aesBlockSize ∣ (src.drop aesBlockSize).length := by
        simp only [List.length_drop]
        exact (Nat.dvd_sub' hdvd dvd_rfl)
      obtain ⟨ih1, ih2⟩ := ih _ (src.drop aesBlockSize) hdl hddvd hc
      simp only [cbcEncAux, if_neg hs]
      constructor
      · simp only [List.length_append, hc, ih1, List.length_drop]; omega
      · exact ih2

theorem cbcDecAux_length (dec : List Nat → List Nat)
    (hdec : ∀ b : List Nat, b.length = aesBlockSize → (dec b).length = aesBlockSize) :
    ∀ f (iv src : List Nat), src.length ≤ f → aesBlockSize ∣ src.length →
    iv.length = aesBlockSize →
    (cbcDecAux dec f iv src).1.length = src.length ∧
    (cbcDecAux dec f iv src).2.length = aesBlockSize := by
  intro f
  induction f with
  | zero =>
    intro iv src h _ hiv
    rw [List.eq_nil_of_length_eq_zero (Nat.le_zero.mp h), cbcDecAux_nil]
    exact ⟨rfl, hiv⟩
  | succ f ih =>
    intro iv src h hdvd hiv
    have hb16 : aesBlockSize = 16 := rfl
    by_cases hs : src = []
    · rw [hs, cbcDecAux_nil]; exact ⟨rfl, hiv⟩
    · have hpos : 0 < src.length := List.length_pos.mpr hs
      have h16 : aesBlockSize ≤ src.length := Nat.le_of_dvd hpos hdvd
      have htake : (src.take aesBlockSize).length = aesBlockSize := by
        simp only [List.length_take]; omega
      have hp : (xorBytes (dec (src.take aesBlockSize)) iv).length = aesBlockSize := by
        rw [length_xorBytes, hdec _ htake, hiv, Nat.min_self]
      have hdl : (src.drop aesBlockSize).length ≤ f := by
        simp only [List.length_drop]; omega
      have hddvd : aesBlockSize ∣ (src.drop aesBlockSize).length := by
        simp only [List.length_drop]
        exact (Nat.dvd_sub' hdvd dvd_rfl)
      obtain ⟨ih1, ih2⟩ := ih _ (src.drop aesBlockSize) hdl hddvd htake
      simp only [cbcDecAux, if_neg hs]
      constructor
      · simp only [List.length_append, hp, ih1, List.length_drop]; omega
      · exact ih2

theorem cbcEncAux_append (enc : List Nat → List Nat) :
    ∀ f (iv a b : List Nat), a.length + b.length ≤ f → aesBlockSize ∣ a.length →
    cbcEncAux enc f iv (a ++ b) =
      ((cbcEncAux enc a.length iv a).1 ++
        (cbcEncAux enc b.length (cbcEncAux enc a.length iv a).2 b).1,
       (cbcEncAux enc b.length (cbcEncAux enc a.length iv a).2 b).2) := by
  intro f
  induction f with
  | zero =>
    intro iv a b h _
    have ha : a = [] := List.eq_nil_of_length_eq_zero (by omega)
    have hb : b = [] := List.eq_nil_of_length_eq_zero (by omega)
    subst ha; subst hb
    simp [cbcEncAux_nil]
  | succ f ih =>
    intro iv a b h hdvd
    have hb16 : aesBlockSize = 16 := rfl
    by_cases ha : a = []
    · subst ha
      simp only [List.nil_append, List.length_nil, cbcEncAux_nil]
      rw [cbcEncAux_fuel enc (f + 1) b.length iv b (by simpa using h) le_rfl]
    · have hpos : 0 < a.length := List.length_pos.mpr ha
      have h16 : aesBlockSize ≤ a.length := Nat.le_of_dvd hpos hdvd
      have hab : a ++ b ≠ [] := by
        intro hcon
        exact ha (List.append_eq_nil.mp hcon).1
      have htk : (a ++ b).take aesBlockSize = a.take aesBlockSize :=
        List.take_append_of_le_length h16
      have hdr : (a ++ b).drop aesBlockSize = a.drop aesBlockSize ++ b :=
        List.drop_append_of_le_length h16
      rw [cbcEncAux_step enc (f + 1) iv (a ++ b) hab (by simp; omega)]
      rw [cbcEncAux_step enc a.length iv a ha le_rfl]
      rw [htk, hdr]
      have hdl : (a.drop aesBlockSize).length + b.length ≤ f := by
        simp only [List.length_drop]; omega
      have hddvd : aesBlockSize ∣ (a.drop aesBlockSize).length := by
        simp only [List.length_drop]
        exact (Nat.dvd_sub' hdvd dvd_rfl)
      rw [cbcEncAux_fuel enc ((a.drop aesBlockSize ++ b).length) f _ _ le_rfl
        (by simp only [List.length_append, List.length_drop]; omega)]
      rw [ih _ (a.drop aesBlockSize) b hdl hddvd]
      simp [List.append_assoc]

theorem cbcDecAux_append (dec : List Nat → List Nat) :
    ∀ f (iv a b : List Nat), a.length + b.length ≤ f → aesBlockSize ∣ a.length →
    cbcDecAux dec f iv (a ++ b) =
      ((cbcDecAux dec a.length iv a).1 ++
        (cbcDecAux dec b.length (cbcDecAux dec a.length iv a).2 b).1,
       (cbcDecAux dec b.length (cbcDecAux dec a.length iv a).2 b).2) := by
  intro f
  induction f with
  | zero =>
    intro iv a b h _
    have ha : a = [] := List.eq_nil_of_length_eq_zero (by omega)
    have hb : b = [] := List.eq_nil_of_length_eq_zero (by omega)
    subst ha; subst hb
    simp [cbcDecAux_nil]
  | succ f ih =>
    intro iv a b h hdvd
    have hb16 : aesBlockSize = 16 := rfl
    by_cases ha : a = []
    · subst ha
      simp only [List.nil_append, List.length_nil, cbcDecAux_nil]
      rw [cbcDecAux_fuel dec (f + 1) b.length iv b (by simpa using h) le_rfl]
    · have hpos : 0 < a.length := List.length_pos.mpr ha
      have h16 : aesBlockSize ≤ a.length := Nat.le_of_dvd hpos hdvd
      have hab : a ++ b ≠ [] := by
        intro hcon
        exact ha (List.append_eq_nil.mp hcon).1
      have htk : (a ++ b).take aesBlockSize = a.take aesBlockSize :=
        List.take_append_of_le_length h16
      have hdr : (a ++ b).drop aesBlockSize = a.drop aesBlockSize ++ b :=
        List.drop_append_of_le_length h16
      rw [cbcDecAux_step dec (f + 1) iv (a ++ b) hab (by simp; omega)]
      rw [cbcDecAux_step dec a.length iv a ha le_rfl]
      rw [htk, hdr]
      have hdl : (a.drop aesBlockSize).length + b.length ≤ f := by
        simp only [List.length_drop]; omega
      have hddvd : aesBlockSize ∣ (a.drop aesBlockSize).length := by
        simp only [List.length_drop]
        exact (Nat.dvd_sub' hdvd dvd_rfl)
      rw [cbcDecAux_fuel dec ((a.drop aesBlockSize ++ b).length) f _ _ le_rfl
        (by simp only [List.length_append, List.length_drop]; omega)]
      rw [ih _ (a.drop aesBlockSize) b hdl hddvd]
      simp [List.append_assoc]

/-- CBC decryption inverts CBC encryption on block-aligned input, and the two
sessions end in the same chaining state. -/
theorem cbcDecAux_cbcEncAux (enc dec : List Nat → List Nat)
    (henc : ∀ b : List Nat, b.length = aesBlockSize → (enc b).length = aesBlockSize)
    (hinv : ∀ b : List Nat, b.length = aesBlockSize → dec (enc b) = b) :
    ∀ f (iv src : List Nat), src.length ≤ f → aesBlockSize ∣ src.length →
    iv.length = aesBlockSize →
    cbcDecAux dec f iv (cbcEncAux enc f iv src).1 = (src, (cbcEncAux enc f iv src).2) := by
  intro f
  induction f with
  | zero =>
    intro iv src h _ _
    rw [List.eq_nil_of_length_eq_zero (Nat.le_zero.mp h), cbcEncAux_nil]
    simp [cbcDecAux_nil]
  | succ f ih =>
    intro iv src h hdvd hiv
    have hb16 : aesBlockSize = 16 := rfl
    by_cases hs : src = []
    · rw [hs, cbcEncAux_nil]
      simp [cbcDecAux_nil]
    · have hpos : 0 < src.length := List.length_pos.mpr hs
      have h16 : aesBlockSize ≤ src.length := Nat.le_of_dvd hpos hdvd
      have htake : (src.take aesBlockSize).length = aesBlockSize := by
        simp only [List.length_take]; omega
      have hxor : (xorBytes (src.take aesBlockSize) iv).length = aesBlockSize := by
        rw [length_xorBytes, htake, hiv, Nat.min_self]
      have hc : (enc (xorBytes (src.take aesBlockSize) iv)).length = aesBlockSize :=
        henc _ hxor
      have hdl : (src.drop aesBlockSize).length ≤ f := by
        simp only [List.length_drop]; omega
      have hddvd : aesBlockSize ∣ (src.drop aesBlockSize).length := by
        simp only [List.length_drop]
        exact Nat.dvd_sub' hdvd dvd_rfl
      set c := enc (xorBytes (src.take aesBlockSize) iv) with hcdef
      set R := cbcEncAux enc f c (src.drop aesBlockSize) with hRdef
      have hR1 : R.1.length = (src.drop aesBlockSize).length :=
        (cbcEncAux_length enc henc f c (src.drop aesBlockSize) hdl hddvd hc).1
      have henc_step : cbcEncAux enc (f + 1) iv src = (c ++ R.1, R.2) := by
        simp only [cbcEncAux, if_neg hs]
      rw [henc_step]
      have hlen : (c ++ R.1).length ≤ f + 1 := by
        simp only [List.length_append, hc, hR1, List.length_drop]; omega
      have hne : c ++ R.1 ≠ [] := by
        intro hcon
        have h1 := (List.append_eq_nil.mp hcon).1
        rw [h1] at hc
        simp [aesBlockSize] at hc
      rw [cbcDecAux_step dec (f + 1) iv (c ++ R.1) hne hlen]
      rw [List.take_left' hc, List.drop_left' hc]
      rw [hcdef, hinv _ hxor, xorBytes_cancel _ _ (by rw [htake, hiv])]
      rw [← hcdef]
      have hfuel : cbcDecAux dec R.1.length c R.1 = cbcDecAux dec f c R.1 := by
        apply cbcDecAux_fuel dec _ _ _ _ le_rfl
        rw [hR1]; exact hdl
      rw [hfuel, hRdef, ih c (src.drop aesBlockSize) hdl hddvd hc]
      simp only [Prod.mk.injEq]
      exact ⟨List.take_append_drop aesBlockSize src, trivial⟩

/-! ### Padding, reading, and loop characterizations -/

theorem applyPKCS7Padding_eq (data : List Nat) :
    applyPKCS7Padding data =
      data ++ List.replicate (aesBlockSize - data.length % aesBlockSize)
        (aesBlockSize - data.length % aesBlockSize) := rfl

theorem applyPKCS7Padding_nil : applyPKCS7Padding [] = List.replicate aesBlockSize aesBlockSize := rfl

theorem applyPKCS7Padding_length (data : List Nat) :
    (applyPKCS7Padding data).length =
      data.length + (aesBlockSize - data.length % aesBlockSize) := by
  simp [applyPKCS7Padding]

theorem dvd_applyPKCS7Padding_length (data : List Nat) :
    aesBlockSize ∣ (applyPKCS7Padding data).length := by
  rw [applyPKCS7Padding_length]
  simp only [aesBlockSize]
  omega

theorem applyPKCS7Padding_pos (data : List Nat) :
    0 < (applyPKCS7Padding data).length := by
  rw [applyPKCS7Padding_length]
  simp only [aesBlockSize]
  omega

theorem applyPKCS7Padding_chunk (data : List Nat) (n : Nat) (hd : aesBlockSize ∣ n)
    (hn : n ≤ data.length) :
    applyPKCS7Padding data = data.take n ++ applyPKCS7Padding (data.drop n) := by
  have hk : aesBlockSize - (data.drop n).length % aesBlockSize =
      aesBlockSize - data.length % aesBlockSize := by
    simp only [List.length_drop, aesBlockSize] at *
    omega
  rw [applyPKCS7Padding_eq, applyPKCS7Padding_eq, hk, ← List.append_assoc,
    List.take_append_drop]

theorem readFull_full (r : Reader) (n : Nat) (h : n ≤ r.data.length) :
    readFull r n = (r.data.take n, none, ⟨r.data.drop n, r.fail⟩) := by
  simp [readFull, h]

theorem readFull_short (r : Reader) (n : Nat) (h : r.data.length < n) :
    readFull r n =
      (r.data,
       some (if r.fail then ReadErr.other
             else if r.data = [] then ReadErr.eof else ReadErr.unexpectedEOF),
       ⟨[], r.fail⟩) := by
  rw [readFull, if_neg (by omega)]

theorem writeEncryptedBlock_eq (enc : List Nat → List Nat) (iv data : List Nat)
    (h : aesBlockSize ∣ data.length) :
    writeEncryptedBlock enc iv data = some (cbcEncAux enc data.length iv data) := by
  simp [writeEncryptedBlock, h]

theorem processFinalBlock_eq (enc : List Nat → List Nat) (iv chunk : List Nat) (hw : Bool) :
    processFinalBlock enc iv chunk hw =
      DResult.ok (cbcEncAux enc (applyPKCS7Padding chunk).length iv (applyPKCS7Padding chunk)).1 := by
  by_cases h0 : chunk.length = 0
  · have hc : chunk = [] := List.eq_nil_of_length_eq_zero h0
    subst hc
    have hrep : writeEncryptedBlock enc iv (List.replicate aesBlockSize aesBlockSize) =
        some (cbcEncAux enc (List.replicate aesBlockSize aesBlockSize).length iv
          (List.replicate aesBlockSize aesBlockSize)) :=
      writeEncryptedBlock_eq _ _ _ (by simp)
    cases hw <;>
      simp [processFinalBlock, hrep, applyPKCS7Padding_nil]
  · simp [processFinalBlock, h0,
      writeEncryptedBlock_eq _ _ _ (dvd_applyPKCS7Padding_length chunk)]

/-- The encryption loop on an error-free reader always succeeds and emits the
CBC encryption of the PKCS7-padded input stream. -/
theorem encryptLoopAux_spec (enc : List Nat → List Nat) :
    ∀ f (iv data : List Nat) (hw : Bool), data.length + 1 ≤ f →
    encryptLoopAux enc f iv ⟨data, false⟩ hw =
      DResult.ok (cbcEncAux enc (applyPKCS7Padding data).length iv
        (applyPKCS7Padding data)).1 := by
  intro f
  induction f with
  | zero => intro iv data hw h; omega
  | succ f ih =>
    intro iv data hw h
    have hbuf : bufferSize = 1048576 := rfl
    by_cases hlt : data.length < bufferSize
    · have hrf := readFull_short ⟨data, false⟩ bufferSize (by simpa using hlt)
      simp only [encryptLoopAux, hrf]
      rw [if_pos (Or.inl hlt)]
      exact processFinalBlock_eq enc iv data hw
    · have hge : bufferSize ≤ data.length := by omega
      have hrf := readFull_full ⟨data, false⟩ bufferSize (by simpa using hge)
      have hcl : ((⟨data, false⟩ : Reader).data.take bufferSize).length = bufferSize := by
        simp only [List.length_take]; omega
      have hdvd : aesBlockSize ∣ (data.take bufferSize).length := by
        simp only at hcl
        rw [hcl]; decide
      simp only [encryptLoopAux, hrf]
      rw [if_neg (by
        simp only at hcl
        simp [hcl])]
      rw [writeEncryptedBlock_eq enc iv (data.take bufferSize) hdvd]
      simp only
      rw [if_neg (by simp)]
      have hihlen : (data.drop bufferSize).length + 1 ≤ f := by
        simp only [List.length_drop]; omega
      rw [ih _ (data.drop bufferSize) true hihlen]
      simp only [DResult.prepend]
      rw [applyPKCS7Padding_chunk data bufferSize (by decide) hge]
      rw [cbcEncAux_append enc ((data.take bufferSize ++
          applyPKCS7Padding (data.drop bufferSize)).length) iv (data.take bufferSize)
        (applyPKCS7Padding (data.drop bufferSize)) (by simp) hdvd]

theorem deriveKeyAndIV_key_length (P : Primitives) (pw salt : List Nat) :
    (deriveKeyAndIV P pw salt).1.length = aes256KeySize := by
  have h48 := P.pbkdf2Key_length pw salt pbkdf2Iterations (aes256KeySize + aesBlockSize)
  simp only [deriveKeyAndIV, List.length_take, h48]
  simp only [aes256KeySize, aesBlockSize]
  omega

theorem deriveKeyAndIV_iv_length (P : Primitives) (pw salt : List Nat) :
    (deriveKeyAndIV P pw salt).2.length = aesBlockSize := by
  have h48 := P.pbkdf2Key_length pw salt pbkdf2Iterations (aes256KeySize + aesBlockSize)
  simp only [deriveKeyAndIV, List.length_take, List.length_drop, h48]
  simp only [aes256KeySize, aesBlockSize, ivOffset]
  omega

theorem aesNewCipherOk_derived (P : Primitives) (pw salt : List Nat) :
    aesNewCipherOk (deriveKeyAndIV P pw salt).1 = true := by
  simp [aesNewCipherOk, deriveKeyAndIV_key_length, aes256KeySize]

/-- `EncryptStream` on an error-free reader: header followed by the CBC
encryption of the padded plaintext, under the derived key and IV. -/
theorem EncryptStream_ok (P : Primitives) (salt plain password : List Nat) :
    EncryptStream P salt ⟨plain, false⟩ password =
      DResult.ok (magicHeader ++ salt ++
        (cbcEncAux (P.aesEnc (deriveKeyAndIV P password salt).1)
          (applyPKCS7Padding plain).length (deriveKeyAndIV P password salt).2
          (applyPKCS7Padding plain)).1) := by
  rw [EncryptStream]
  simp only [aesNewCipherOk_derived, if_pos]
  rw [encryptLoopAux_spec _ _ _ _ _ (le_refl _)]
  simp [DResult.prepend, writeEncryptedHeader, List.append_assoc]

theorem readAndValidateHeader_valid (salt ct : List Nat) (fail : Bool)
    (hs : salt.length = saltSize) :
    readAndValidateHeader ⟨magicHeader ++ salt ++ ct, fail⟩ =
      Except.ok (salt, ⟨ct, fail⟩) := by
  have hm : magicHeader.length = saltSize := rfl
  have hms : (magicHeader ++ salt).length = headerSize := by
    simp only [List.length_append, hm, hs, saltSize, headerSize]
  have hassoc : magicHeader ++ salt ++ ct = (magicHeader ++ salt) ++ ct := rfl
  rw [readAndValidateHeader]
  rw [readFull_full _ _ (by simp only [hassoc, List.length_append] at *; omega)]
  simp only
  rw [hassoc, List.take_left' hms, List.drop_left' hms]
  rw [List.take_left' hm, List.drop_left' hm]
  simp

theorem processDecryptionBlock_last (dec : List Nat → List Nat)
    (iv chunk prev : List Nat) (h : aesBlockSize ∣ chunk.length) :
    processDecryptionBlock dec iv chunk prev true =
      some (prev ++ removePKCS7Padding (cbcDecAux dec chunk.length iv chunk).1 chunk.length,
        none, (cbcDecAux dec chunk.length iv chunk).2) := by
  simp [processDecryptionBlock, h]

theorem processDecryptionBlock_mid (dec : List Nat → List Nat)
    (iv chunk prev : List Nat) (h : aesBlockSize ∣ chunk.length) :
    processDecryptionBlock dec iv chunk prev false =
      some (prev, some (cbcDecAux dec chunk.length iv chunk).1,
        (cbcDecAux dec chunk.length iv chunk).2) := by
  simp [processDecryptionBlock, h]

theorem decryptLoopAux_empty (dec : List Nat → List Nat) (f : Nat)
    (iv prev : List Nat) (fail : Bool) (hf : 1 ≤ f) :
    decryptLoopAux dec f iv ⟨[], fail⟩ prev = handleEndOfFile prev := by
  cases f with
  | zero => omega
  | succ f =>
    have hrf := readFull_short ⟨[], fail⟩ bufferSize (by simp [bufferSize])
    simp only [decryptLoopAux, hrf]
    rw [if_pos (show ([] : List Nat).length = 0 from rfl)]

/-- The decryption loop on an error-free reader delivering a non-empty
block-aligned ciphertext always returns normally, emitting the pending bytes
followed by the chunkwise decryption with padding stripped from the final
chunk. -/
theorem decryptLoopAux_spec (dec : List Nat → List Nat)
    (hdec : ∀ b : List Nat, b.length = aesBlockSize → (dec b).length = aesBlockSize) :
    ∀ f g (iv data prev : List Nat), data.length + 1 ≤ f → data.length ≤ g →
    0 < data.length → aesBlockSize ∣ data.length → iv.length = aesBlockSize →
    decryptLoopAux dec f iv ⟨data, false⟩ prev =
      DResult.ok (prev ++ stripFinalAux dec g iv data) := by
  intro f
  induction f with
  | zero => intro g iv data prev h _ _ _ _; omega
  | succ f ih =>
    intro g iv data prev hf hg hpos hdvd hiv
    have hbuf : bufferSize = 1048576 := rfl
    have hb16 : aesBlockSize = 16 := rfl
    obtain ⟨g', rfl⟩ : ∃ g', g = g' + 1 := ⟨g - 1, by omega⟩
    by_cases hlt : data.length < bufferSize
    · have hrf := readFull_short ⟨data, false⟩ bufferSize (by simpa using hlt)
      simp only [decryptLoopAux, hrf]
      rw [if_neg (by simpa using Nat.pos_iff_ne_zero.mp hpos)]
      rw [decide_eq_true (Or.inl hlt)]
      rw [processDecryptionBlock_last dec iv data prev hdvd]
      simp only [stripFinalAux]
      rw [if_pos (by omega)]
    · have hge : bufferSize ≤ data.length := by omega
      have hrf := readFull_full ⟨data, false⟩ bufferSize (by simpa using hge)
      have hcl : (data.take bufferSize).length = bufferSize := by
        simp only [List.length_take]; omega
      have hcdvd : aesBlockSize ∣ (data.take bufferSize).length := by
        rw [hcl]; decide
      have hcur := cbcDecAux_length dec hdec (data.take bufferSize).length iv
        (data.take bufferSize) le_rfl hcdvd hiv
      simp only [decryptLoopAux, hrf]
      rw [if_neg (by simp only [hcl]; omega)]
      rw [decide_eq_false (by simp [hcl])]
      rw [processDecryptionBlock_mid dec iv (data.take bufferSize) prev hcdvd]
      simp only
      rw [if_neg (by simp)]
      by_cases heq : data.length = bufferSize
      · have hdnil : data.drop bufferSize = [] :=
          List.eq_nil_of_length_eq_zero (by simp [List.length_drop]; omega)
        rw [hdnil, decryptLoopAux_empty dec f _ _ false (by omega)]
        rw [handleEndOfFile, if_pos (by rw [hcur.1, hcl]; omega)]
        simp only [DResult.prepend]
        simp only [stripFinalAux]
        rw [if_pos (by omega)]
        rw [hcur.1, hcl, ← heq, List.take_length]
      · have hgt : bufferSize < data.length := by omega
        rw [ih g' (cbcDecAux dec (data.take bufferSize).length iv (data.take bufferSize)).2
          (data.drop bufferSize)
          (cbcDecAux dec (data.take bufferSize).length iv (data.take bufferSize)).1
          (by simp only [List.length_drop]; omega)
          (by simp only [List.length_drop]; omega)
          (by simp only [List.length_drop]; omega)
          (by simp only [List.length_drop]; exact Nat.dvd_sub' hdvd (by rw [hbuf, hb16]; decide))
          hcur.2]
        simp only [DResult.prepend]
        simp only [stripFinalAux]
        rw [if_neg (by omega)]
        rw [hcl]

/-- Stripping a well-formed PKCS7 pad (value between 1 and 16) recovers the
unpadded data. -/
theorem removePKCS7Padding_valid (plain : List Nat) (k : Nat) (h1 : 1 ≤ k)
    (h16 : k ≤ aesBlockSize) :
    removePKCS7Padding (plain ++ List.replicate k k)
      (plain ++ List.replicate k k).length = plain := by
  have hb16 : aesBlockSize = 16 := rfl
  have hlen : (plain ++ List.replicate k k).length = plain.length + k := by simp
  have hsplit : ∀ (l₁ l₂ : List Nat) (n d : Nat), l₁.length ≤ n →
      (l₁ ++ l₂).getD n d = l₂.getD (n - l₁.length) d := by
    intro l₁ l₂ n d h
    simp [List.getD, List.getElem?_append_right h]
  have hklt : k - 1 < k := by omega
  have hp : (plain ++ List.replicate k k).getD
      ((plain ++ List.replicate k k).length - 1) 0 = k := by
    rw [hlen, hsplit plain (List.replicate k k) (plain.length + k - 1) 0 (by omega)]
    rw [show plain.length + k - 1 - plain.length = k - 1 from by omega]
    simp [List.getD, List.getElem?_replicate, hklt]
  rw [removePKCS7Padding]
  rw [if_neg (show ¬(plain ++ List.replicate k k).length = 0 from by omega)]
  simp only [hp]
  rw [if_neg (show ¬(k > (plain ++ List.replicate k k).length ∨ k > aesBlockSize) from by
    omega)]
  rw [hlen]
  rw [show plain.length + k - k = plain.length from by omega]
  exact List.take_left plain _

/-- When the chunkwise decryption of a block-aligned ciphertext ends in a
well-formed PKCS7 pad, the final-chunk strip recovers exactly the unpadded
plaintext. -/
theorem stripFinalAux_spec (dec : List Nat → List Nat)
    (hdec : ∀ b : List Nat, b.length = aesBlockSize → (dec b).length = aesBlockSize) :
    ∀ g (iv ct plain : List Nat) (k : Nat), ct.length ≤ g →
    aesBlockSize ∣ ct.length → iv.length = aesBlockSize →
    1 ≤ k → k ≤ aesBlockSize → ct.length = plain.length + k →
    (cbcDecAux dec ct.length iv ct).1 = plain ++ List.replicate k k →
    stripFinalAux dec g iv ct = plain := by
  intro g
  induction g with
  | zero =>
    intro iv ct plain k hg _ _ h1 _ hlen _
    have : ct = [] := List.eq_nil_of_length_eq_zero (Nat.le_zero.mp hg)
    rw [this] at hlen
    simp at hlen
    omega
  | succ g ih =>
    intro iv ct plain k hg hdvd hiv h1 h16 hlen hD
    have hbuf : bufferSize = 1048576 := rfl
    have hb16 : aesBlockSize = 16 := rfl
    have hdvd16 : (16 : Nat) ∣ ct.length := by rw [← hb16]; exact hdvd
    by_cases hle : ct.length ≤ bufferSize
    · simp only [stripFinalAux]
      rw [if_pos hle, hD]
      rw [show ct.length = (plain ++ List.replicate k k).length from by simp [hlen]]
      exact removePKCS7Padding_valid plain k h1 h16
    · have hgt : bufferSize < ct.length := by omega
      have hctlb : bufferSize + 16 ≤ ct.length := by omega
      have hplainlb : bufferSize ≤ plain.length := by omega
      have hcl : (ct.take bufferSize).length = bufferSize := by
        simp only [List.length_take]; omega
      have hcdvd : aesBlockSize ∣ (ct.take bufferSize).length := by
        rw [hcl]; rw [hb16, hbuf]; decide
      have happ := cbcDecAux_append dec ct.length iv (ct.take bufferSize)
        (ct.drop bufferSize) (by simp only [List.length_take, List.length_drop]; omega) hcdvd
      rw [List.take_append_drop] at happ
      have hcur := cbcDecAux_length dec hdec (ct.take bufferSize).length iv
        (ct.take bufferSize) le_rfl hcdvd hiv
      have hA : (cbcDecAux dec (ct.take bufferSize).length iv (ct.take bufferSize)).1.length =
          bufferSize := by rw [hcur.1, hcl]
      have hfst := congrArg Prod.fst happ
      rw [hD] at hfst
      have htk := congrArg (List.take bufferSize) hfst
      rw [List.take_append_of_le_length hplainlb,
        List.take_append_of_le_length (le_of_eq hA.symm),
        List.take_of_length_le (le_of_eq hA)] at htk
      have hdr := congrArg (List.drop bufferSize) hfst
      rw [List.drop_append_of_le_length hplainlb,
        List.drop_append_of_le_length (le_of_eq hA.symm),
        List.drop_eq_nil_of_le (le_of_eq hA), List.nil_append] at hdr
      simp only [stripFinalAux]
      rw [if_neg (by omega)]
      have hfuel : cbcDecAux dec bufferSize iv (ct.take bufferSize) =
          cbcDecAux dec (ct.take bufferSize).length iv (ct.take bufferSize) :=
        cbcDecAux_fuel dec bufferSize (ct.take bufferSize).length iv _
          (by rw [hcl]) le_rfl
      rw [hfuel, ← htk]
      rw [ih (cbcDecAux dec (ct.take bufferSize).length iv (ct.take bufferSize)).2
        (ct.drop bufferSize) (plain.drop bufferSize) k
        (by simp only [List.length_drop]; omega)
        (by simp only [List.length_drop]; exact Nat.dvd_sub' hdvd (by rw [hb16, hbuf]; decide))
        hcur.2 h1 h16
        (by simp only [List.length_drop]; omega)
        (by rw [← hdr])]
      exact List.take_append_drop bufferSize plain

/-- `DecryptStream` on a container with a valid header runs the decryption
loop on the body under the key and IV derived from the recovered salt. -/
theorem DecryptStream_valid (P : Primitives) (salt ct password : List Nat) (fail : Bool)
    (hs : salt.length = saltSize) :
    DecryptStream P ⟨magicHeader ++ salt ++ ct, fail⟩ password =
      decryptLoopAux (P.aesDec (deriveKeyAndIV P password salt).1) (ct.length + 1)
        (deriveKeyAndIV P password salt).2 ⟨ct, fail⟩ [] := by
  rw [DecryptStream, readAndValidateHeader_valid salt ct fail hs]
  simp [aesNewCipherOk_derived]

theorem readAndValidateHeader_short (r : Reader) (h : r.data.length < headerSize) :
    readAndValidateHeader r = Except.error ErrKind.headerReadFailed := by
  rw [readAndValidateHeader, readFull_short _ _ h]

theorem readAndValidateHeader_badMagic (r : Reader) (h16 : headerSize ≤ r.data.length)
    (hm : (r.data.take headerSize).take saltSize ≠ magicHeader) :
    readAndValidateHeader r = Except.error ErrKind.invalidFormat := by
  rw [readAndValidateHeader, readFull_full _ _ h16]
  simp [hm]

theorem readAndValidateHeader_ok (r : Reader) (h16 : headerSize ≤ r.data.length)
    (hm : (r.data.take headerSize).take saltSize = magicHeader) :
    readAndValidateHeader r =
      Except.ok ((r.data.take headerSize).drop saltSize, ⟨r.data.drop headerSize, r.fail⟩) := by
  rw [readAndValidateHeader, readFull_full _ _ h16]
  simp [hm]

theorem DecryptStream_headerError (P : Primitives) (r : Reader) (password : List Nat)
    (e : ErrKind) (h : readAndValidateHeader r = Except.error e) :
    DecryptStream P r password = DResult.err [] e := by
  rw [DecryptStream, h]

theorem processDecryptionBlock_misaligned (dec : List Nat → List Nat)
    (iv chunk prev : List Nat) (b : Bool) (h : ¬ aesBlockSize ∣ chunk.length) :
    processDecryptionBlock dec iv chunk prev b = none := by
  simp [processDecryptionBlock, h]

/-- On an error-free reader delivering a body whose length is not a multiple
of 16, the decryption loop reaches a misaligned final chunk and panics. -/
theorem decryptLoopAux_panic (dec : List Nat → List Nat) :
    ∀ f (iv data prev : List Nat), data.length + 1 ≤ f →
    ¬ aesBlockSize ∣ data.length →
    ∃ out, decryptLoopAux dec f iv ⟨data, false⟩ prev = DResult.panic out := by
  intro f
  induction f with
  | zero => intro iv data prev h _; omega
  | succ f ih =>
    intro iv data prev hf hmis
    have hbuf : bufferSize = 1048576 := rfl
    have hb16 : aesBlockSize = 16 := rfl
    have hmis16 : ¬ (16 : Nat) ∣ data.length := by rw [← hb16]; exact hmis
    have hpos : 0 < data.length := by
      rcases Nat.eq_zero_or_pos data.length with h0 | h
      · exact absurd (h0 ▸ Dvd.intro 0 rfl) hmis
      · exact h
    by_cases hlt : data.length < bufferSize
    · have hrf := readFull_short ⟨data, false⟩ bufferSize (by simpa using hlt)
      refine ⟨[], ?_⟩
      simp only [decryptLoopAux, hrf]
      rw [if_neg (by simpa using Nat.pos_iff_ne_zero.mp hpos)]
      rw [processDecryptionBlock_misaligned dec iv data prev _ hmis]
    · have hge : bufferSize ≤ data.length := by omega
      have hrf := readFull_full ⟨data, false⟩ bufferSize (by simpa using hge)
      have hcl : (data.take bufferSize).length = bufferSize := by
        simp only [List.length_take]; omega
      have hcdvd : aesBlockSize ∣ (data.take bufferSize).length := by
        rw [hcl, hb16, hbuf]; decide
      obtain ⟨out, hout⟩ := ih
        (cbcDecAux dec (data.take bufferSize).length iv (data.take bufferSize)).2
        (data.drop bufferSize)
        (cbcDecAux dec (data.take bufferSize).length iv (data.take bufferSize)).1
        (by simp only [List.length_drop]; omega)
        (by simp only [List.length_drop, hb16]; omega)
      refine ⟨prev ++ out, ?_⟩
      simp only [decryptLoopAux, hrf]
      rw [if_neg (by simp only [hcl]; omega)]
      rw [decide_eq_false (by simp [hcl])]
      rw [processDecryptionBlock_mid dec iv (data.take bufferSize) prev hcdvd]
      simp only
      rw [if_neg (by simp)]
      rw [hout]
      rfl

/-! ### The claimed properties -/

/-- Claim C1: for every plaintext byte sequence (including the empty sequence
and lengths around the 16-byte block and the 1 MiB chunk buffer) and every
password, running `DecryptStream` on the output of `EncryptStream` with the
same password yields exactly the original plaintext. -/
theorem C1_encryptStream_decryptStream_roundTrip (P : Primitives)
    (salt password plain : List Nat) (hsalt : salt.length = saltSize) :
    ∃ out, EncryptStream P salt ⟨plain, false⟩ password = DResult.ok out ∧
      DecryptStream P ⟨out, false⟩ password = DResult.ok plain := by
  refine ⟨_, EncryptStream_ok P salt plain password, ?_⟩
  have hb16 : aesBlockSize = 16 := rfl
  set K := (deriveKeyAndIV P password salt).1 with hK
  set IV := (deriveKeyAndIV P password salt).2 with hIV
  set PD := applyPKCS7Padding plain with hPD
  set CT := (cbcEncAux (P.aesEnc K) PD.length IV PD).1 with hCT
  have hivlen : IV.length = aesBlockSize := deriveKeyAndIV_iv_length P password salt
  have henc := P.aesEnc_length K
  have hdec := P.aesDec_length K
  have hpdvd : aesBlockSize ∣ PD.length := dvd_applyPKCS7Padding_length plain
  have hppos : 0 < PD.length := applyPKCS7Padding_pos plain
  have hctlen : CT.length = PD.length := by
    rw [hCT]
    exact (cbcEncAux_length _ henc _ _ _ le_rfl hpdvd hivlen).1
  rw [DecryptStream_valid P salt CT password false hsalt]
  rw [decryptLoopAux_spec (P.aesDec K) hdec (CT.length + 1) CT.length IV CT []
    le_rfl le_rfl (by omega) (by rw [hctlen]; exact hpdvd) hivlen]
  rw [List.nil_append]
  have hinv := cbcDecAux_cbcEncAux (P.aesEnc K) (P.aesDec K) henc (P.aesDec_aesEnc K)
    PD.length IV PD le_rfl hpdvd hivlen
  have hD : (cbcDecAux (P.aesDec K) CT.length IV CT).1 =
      plain ++ List.replicate (aesBlockSize - plain.length % aesBlockSize)
        (aesBlockSize - plain.length % aesBlockSize) := by
    rw [hctlen, hCT, hinv]
    show PD = _
    rw [hPD]
    exact applyPKCS7Padding_eq plain
  rw [stripFinalAux_spec (P.aesDec K) hdec CT.length IV CT plain
    (aesBlockSize - plain.length % aesBlockSize) le_rfl
    (by rw [hctlen]; exact hpdvd) hivlen
    (by simp only [aesBlockSize]; omega) (by omega)
    (by rw [hctlen, hPD, applyPKCS7Padding_length]) hD]

/-- Witness for C1 at concrete inputs. -/
theorem C1_witness :
    (List.replicate 8 0).length = saltSize ∧
    ∃ out, EncryptStream idPrims (List.replicate 8 0) ⟨[1, 2, 3], false⟩ [5] =
        DResult.ok out ∧
      DecryptStream idPrims ⟨out, false⟩ [5] = DResult.ok [1, 2, 3] :=
  ⟨by decide, C1_encryptStream_decryptStream_roundTrip idPrims (List.replicate 8 0) [5]
    [1, 2, 3] (by decide)⟩

/-- Claim C2: past the 16-byte header, the output of `EncryptStream` has
length exactly `16 * ceil((len(P) + 1) / 16)`: a positive multiple of 16,
strictly greater than `len(P)` rounded down to a block boundary, even for an
empty plaintext. -/
theorem C2_ciphertextLength (P : Primitives) (salt password plain : List Nat)
    (hsalt : salt.length = saltSize) :
    ∃ ct, EncryptStream P salt ⟨plain, false⟩ password =
        DResult.ok (magicHeader ++ salt ++ ct) ∧
      ct.length = 16 * ((plain.length + 1 + 15) / 16) ∧
      0 < ct.length ∧ (16 : Nat) ∣ ct.length ∧
      16 * (plain.length / 16) < ct.length := by
  refine ⟨_, EncryptStream_ok P salt plain password, ?_, ?_, ?_, ?_⟩ <;>
  · rw [(cbcEncAux_length _ (P.aesEnc_length (deriveKeyAndIV P password salt).1) _ _ _
      le_rfl (dvd_applyPKCS7Padding_length plain)
      (deriveKeyAndIV_iv_length P password salt)).1]
    rw [applyPKCS7Padding_length]
    simp only [aesBlockSize]
    omega

/-- Witness for C2 at concrete inputs. -/
theorem C2_witness :
    (List.replicate 8 0).length = saltSize ∧
    ∃ ct, EncryptStream idPrims (List.replicate 8 0) ⟨[1, 2, 3], false⟩ [] =
        DResult.ok (magicHeader ++ List.replicate 8 0 ++ ct) ∧
      ct.length = 16 * (([1, 2, 3].length + 1 + 15) / 16) ∧
      0 < ct.length ∧ (16 : Nat) ∣ ct.length ∧
      16 * ([1, 2, 3].length / 16) < ct.length :=
  ⟨by decide, C2_ciphertextLength idPrims (List.replicate 8 0) [] [1, 2, 3] (by decide)⟩

/-- Claim C3: stripping padding from a final decrypted chunk reads the last
byte as the padding length `p` and drops the last `p` bytes exactly when
`1 ≤ p ≤ 16` and `p ≤ chunk length`; for every other `p` (including `p = 0`
and `p` exceeding the chunk length) the chunk is returned unmodified, no
error is raised, and an empty chunk is returned unmodified. -/
theorem C3_removePaddingRule (data : List Nat) :
    removePKCS7Padding data data.length =
      (if 1 ≤ data.getD (data.length - 1) 0 ∧ data.getD (data.length - 1) 0 ≤ 16 ∧
          data.getD (data.length - 1) 0 ≤ data.length
       then data.take (data.length - data.getD (data.length - 1) 0)
       else data) := by
  have hb16 : aesBlockSize = 16 := rfl
  by_cases h0 : data.length = 0
  · have hnil : data = [] := List.eq_nil_of_length_eq_zero h0
    subst hnil
    simp [removePKCS7Padding]
  · rw [removePKCS7Padding, if_neg h0]
    by_cases hc : data.getD (data.length - 1) 0 > data.length ∨
        data.getD (data.length - 1) 0 > aesBlockSize
    · have hnot : ¬(1 ≤ data.getD (data.length - 1) 0 ∧
          data.getD (data.length - 1) 0 ≤ 16 ∧
          data.getD (data.length - 1) 0 ≤ data.length) := by
        rcases hc with hgt | hgt <;> omega
      rw [if_pos hc, if_neg hnot]
    · rw [if_neg hc]
      push_neg at hc
      obtain ⟨hc1, hc2⟩ := hc
      by_cases hp0 : data.getD (data.length - 1) 0 = 0
      · have hnot : ¬(1 ≤ data.getD (data.length - 1) 0 ∧
            data.getD (data.length - 1) 0 ≤ 16 ∧
            data.getD (data.length - 1) 0 ≤ data.length) := by omega
        rw [if_neg hnot, hp0, Nat.sub_zero, List.take_length]
      · have hcond : 1 ≤ data.getD (data.length - 1) 0 ∧
            data.getD (data.length - 1) 0 ≤ 16 ∧
            data.getD (data.length - 1) 0 ≤ data.length := by omega
        rw [if_pos hcond]

/-- Claim C4: `DecryptStream` fails with a FormatError and writes nothing
when the input holds fewer than 16 bytes ("failed to read header") or when
its first 8 bytes differ from the magic tag ("invalid file format"); with a
valid header it proceeds using bytes 8..15 as the salt. -/
theorem C4_headerValidation (P : Primitives) (password data : List Nat) (fail : Bool) :
    (data.length < 16 → DecryptStream P ⟨data, fail⟩ password =
        DResult.err [] ErrKind.headerReadFailed) ∧
    (16 ≤ data.length → (data.take 16).take 8 ≠ magicHeader →
      DecryptStream P ⟨data, fail⟩ password = DResult.err [] ErrKind.invalidFormat) ∧
    (16 ≤ data.length → (data.take 16).take 8 = magicHeader →
      readAndValidateHeader ⟨data, fail⟩ =
        Except.ok ((data.take 16).drop 8, ⟨data.drop 16, fail⟩)) := by
  refine ⟨?_, ?_, ?_⟩
  · intro h
    exact DecryptStream_headerError P _ password _
      (readAndValidateHeader_short ⟨data, fail⟩ h)
  · intro h16 hm
    exact DecryptStream_headerError P _ password _
      (readAndValidateHeader_badMagic ⟨data, fail⟩ h16 hm)
  · intro h16 hm
    exact readAndValidateHeader_ok ⟨data, fail⟩ h16 hm

/-- Witness for C4 at a concrete input. -/
theorem C4_witness :
    DecryptStream idPrims ⟨[1, 2, 3], false⟩ [] =
      DResult.err [] ErrKind.headerReadFailed :=
  (C4_headerValidation idPrims [] [1, 2, 3] false).1 (by decide)

/-- Claim C5: key derivation performs a single PBKDF2 call with 10,000
iterations requesting 48 bytes, splitting the result into the 32-byte key
(bytes 0..31) and the 16-byte IV (bytes 32..47); byte-identical inputs yield
byte-identical results. -/
theorem C5_keyDerivation (P : Primitives) (password salt : List Nat) :
    deriveKeyAndIV P password salt =
      ((P.pbkdf2Key password salt 10000 48).take 32,
       ((P.pbkdf2Key password salt 10000 48).drop 32).take 16) ∧
    (deriveKeyAndIV P password salt).1.length = 32 ∧
    (deriveKeyAndIV P password salt).2.length = 16 ∧
    (∀ password' salt', password' = password → salt' = salt →
      deriveKeyAndIV P password' salt' = deriveKeyAndIV P password salt) := by
  refine ⟨rfl, deriveKeyAndIV_key_length P password salt,
    deriveKeyAndIV_iv_length P password salt, ?_⟩
  intro password' salt' hp hs
  rw [hp, hs]

/-- Witness for C5 at concrete inputs. -/
theorem C5_witness :
    deriveKeyAndIV idPrims [] (List.replicate 8 0) =
      deriveKeyAndIV idPrims [] (List.replicate 8 0) :=
  (C5_keyDerivation idPrims [] (List.replicate 8 0)).2.2.2 [] (List.replicate 8 0) rfl rfl

/-- Claim C6 (the claim is refuted by the code): a non-EOF read failure
during block processing is swallowed, not propagated.  With a reader that
delivers a few bytes and then fails with a non-EOF error, `EncryptStream`
pads and encrypts the partial data and returns success, and `DecryptStream`
treats the data read so far as the final chunk and returns success; the
`failed to read ... data` branches are unreachable because `io.ReadFull`
never reports a full buffer together with a non-EOF error. -/
theorem C6_readErrorSwallowed :
    EncryptStream idPrims (List.replicate 8 0) ⟨[1, 2, 3], true⟩ [] =
      DResult.ok (magicHeader ++ List.replicate 8 0 ++
        ([1, 2, 3] ++ List.replicate 13 13)) ∧
    DecryptStream idPrims
        ⟨magicHeader ++ List.replicate 8 0 ++ List.replicate 16 16, true⟩ [] =
      DResult.ok [] :=
  ⟨by decide, by decide⟩

/-- Claim C7: decrypting a container that is exactly a valid 16-byte header
with no ciphertext returns success and writes no plaintext. -/
theorem C7_emptyCiphertext (P : Primitives) (password salt : List Nat)
    (hsalt : salt.length = saltSize) :
    DecryptStream P ⟨magicHeader ++ salt, false⟩ password = DResult.ok [] := by
  have h : magicHeader ++ salt = magicHeader ++ salt ++ ([] : List Nat) := by simp
  rw [h, DecryptStream_valid P salt [] password false hsalt]
  rw [decryptLoopAux_empty _ _ _ _ _ (by omega)]
  rfl

/-- Witness for C7 at a concrete input. -/
theorem C7_witness :
    DecryptStream idPrims ⟨magicHeader ++ List.replicate 8 0, false⟩ [] =
      DResult.ok [] :=
  C7_emptyCiphertext idPrims [] (List.replicate 8 0) (by decide)

/-- Claim C8: decrypting any container produced by `EncryptStream` with any
password (in particular a wrong one) returns normally - no panic and no
error - either stripping what looks like padding or emitting the garbage
bytes unmodified. -/
theorem C8_wrongPasswordNoCrash (P : Primitives)
    (salt password password' plain out : List Nat)
    (hsalt : salt.length = saltSize)
    (henc : EncryptStream P salt ⟨plain, false⟩ password = DResult.ok out) :
    ∃ res, DecryptStream P ⟨out, false⟩ password' = DResult.ok res := by
  rw [EncryptStream_ok P salt plain password] at henc
  injection henc with hout
  subst hout
  set K := (deriveKeyAndIV P password salt).1 with hK
  set IV := (deriveKeyAndIV P password salt).2 with hIV
  set PD := applyPKCS7Padding plain with hPD
  set CT := (cbcEncAux (P.aesEnc K) PD.length IV PD).1 with hCT
  set K' := (deriveKeyAndIV P password' salt).1 with hK'
  set IV' := (deriveKeyAndIV P password' salt).2 with hIV'
  have hivlen : IV.length = aesBlockSize := deriveKeyAndIV_iv_length P password salt
  have hivlen' : IV'.length = aesBlockSize := deriveKeyAndIV_iv_length P password' salt
  have hpdvd : aesBlockSize ∣ PD.length := dvd_applyPKCS7Padding_length plain
  have hppos : 0 < PD.length := applyPKCS7Padding_pos plain
  have hctlen : CT.length = PD.length := by
    rw [hCT]
    exact (cbcEncAux_length _ (P.aesEnc_length K) _ _ _ le_rfl hpdvd hivlen).1
  rw [DecryptStream_valid P salt CT password' false hsalt]
  rw [decryptLoopAux_spec (P.aesDec K') (P.aesDec_length K') (CT.length + 1) CT.length
    IV' CT [] le_rfl le_rfl (by omega) (by rw [hctlen]; exact hpdvd) hivlen']
  exact ⟨_, rfl⟩

/-- Witness for C8 at concrete inputs. -/
theorem C8_witness :
    (List.replicate 8 0).length = saltSize ∧
    EncryptStream idPrims (List.replicate 8 0) ⟨[], false⟩ [] =
      DResult.ok (magicHeader ++ List.replicate 8 0 ++ List.replicate 16 16) ∧
    ∃ res, DecryptStream idPrims
        ⟨magicHeader ++ List.replicate 8 0 ++ List.replicate 16 16, false⟩ [7] =
      DResult.ok res :=
  ⟨by decide, by decide,
    C8_wrongPasswordNoCrash idPrims (List.replicate 8 0) [] [7] []
      (magicHeader ++ List.replicate 8 0 ++ List.replicate 16 16)
      (by decide) (by decide)⟩

/-- Claim C9: padding followed by stripping is the identity - the pad value
always lies in 1..16 and never exceeds the padded length, so
`removePKCS7Padding` undoes `applyPKCS7Padding` on every byte sequence. -/
theorem C9_padThenStrip (data : List Nat) :
    removePKCS7Padding (applyPKCS7Padding data) (applyPKCS7Padding data).length = data := by
  rw [applyPKCS7Padding_eq]
  exact removePKCS7Padding_valid data _
    (by simp only [aesBlockSize]; omega) (Nat.sub_le _ _)

/-- Claim C10: on an input with a valid header whose non-empty body is not a
multiple of 16 bytes, `DecryptStream` neither returns an IOError nor a
FormatError: the CBC decryption of the misaligned final chunk panics. -/
theorem C10_misalignedBodyPanics (P : Primitives) (password salt body : List Nat)
    (hsalt : salt.length = saltSize) (hmis : ¬ (16 : Nat) ∣ body.length) :
    ∃ out, DecryptStream P ⟨magicHeader ++ salt ++ body, false⟩ password =
      DResult.panic out := by
  rw [DecryptStream_valid P salt body password false hsalt]
  exact decryptLoopAux_panic _ _ _ _ _ le_rfl hmis

/-- Witness for C10 at a concrete input. -/
theorem C10_witness :
    (List.replicate 8 0).length = saltSize ∧ ¬ (16 : Nat) ∣ ([1] : List Nat).length ∧
    ∃ out, DecryptStream idPrims ⟨magicHeader ++ List.replicate 8 0 ++ [1], false⟩ [] =
      DResult.panic out :=
  ⟨by decide, by decide,
    C10_misalignedBodyPanics idPrims [] (List.replicate 8 0) [1] (by decide) (by decide)⟩
